import Mathlib

/-!
Shallow embedding of the tsz time-series codec (Gorilla-style):
the predictors (src/predictor.rs), the standard encoder
(src/encode/std_encoder.rs) and the standard decoder
(src/decode/std_decoder.rs).

Machine integers are modelled as Nat with explicit reduction mod 2 ^ 64
where the Rust code wraps (u64 arithmetic); i64 and i32 values are
modelled as Int with explicit two's-complement conversions.  The Rust
Bit enum is modelled as Bool with Zero = false and One = true.  A bit
stream is a List Bool, most significant bit first.
-/

set_option maxRecDepth 100000

namespace Tsz

/-- Wrapping subtraction of two u64 values (result of a - b mod 2 ^ 64,
for a b < 2 ^ 64). -/
def wsub (a b : Nat) : Nat := (a + 2 ^ 64 - b) % 2 ^ 64

/-- Reinterpret an i64 (or i32 already sign-extended) integer as its
two's-complement u64 bit pattern, i.e. the Rust cast to u64. -/
def i64bits (x : Int) : Nat := (x % (2 ^ 64 : Int)).toNat

/-- Reinterpret a u64 bit pattern as an i64, i.e. the Rust transmute
from u64 to i64. -/
def toI64 (n : Nat) : Int :=
  if n < 2 ^ 63 then (n : Int) else (n : Int) - 2 ^ 64

/-- Truncate a u64 bit pattern to its low 32 bits and reinterpret them
as an i32, i.e. the Rust cast as i32. -/
def toI32 (n : Nat) : Int :=
  if n % 2 ^ 32 < 2 ^ 31 then ((n % 2 ^ 32 : Nat) : Int)
  else ((n % 2 ^ 32 : Nat) : Int) - 2 ^ 32

/-- Number of binary digits of x, computed with explicit fuel (64 is
always enough for u64 values). -/
def bitLenAux : Nat → Nat → Nat
  | 0, _ => 0
  | fuel + 1, x => if x = 0 then 0 else bitLenAux fuel (x / 2) + 1

/-- Model of the Rust u64 method leading_zeros. -/
def clz64 (x : Nat) : Nat := 64 - bitLenAux 64 x

/-- Value of a bit sequence read most significant bit first. -/
def bitsToNat (l : List Bool) : Nat :=
  l.foldl (fun acc b => 2 * acc + cond b 1 0) 0

/-- Modelled from the spec (4.1, the BufferedWriter is an external
collaborator): write_bits emits the low n bits of v, most significant
first. -/
def writeBits (v : Nat) (n : Nat) : List Bool :=
  (List.range n).map (fun i => v.testBit (n - 1 - i))

/-- Group a bit list into bytes, 8 bits per byte (the list length is a
multiple of 8 when this is applied). -/
def chunk8 : List Bool → List Nat
  | b0 :: b1 :: b2 :: b3 :: b4 :: b5 :: b6 :: b7 :: rest =>
      bitsToNat [b0, b1, b2, b3, b4, b5, b6, b7] :: chunk8 rest
  | _ => []

/-- Modelled from the spec (4.1): closing the BufferedWriter pads the
final byte with zero bits and returns the bytes. -/
def toBytes (l : List Bool) : List Nat :=
  chunk8 (l ++ List.replicate ((8 - l.length % 8) % 8) false)

/-- Modelled from the spec (4.1): the BufferedReader reads the bytes of
its buffer bit by bit, most significant bit of each byte first. -/
def bytesToBits : List Nat → List Bool
  | [] => []
  | b :: rest => writeBits b 8 ++ bytesToBits rest

/-- State of the three predictor variants of src/predictor.rs.  The
simple variant is SimplePredictor (last value), fcm is FcmPredictor
and dfcm is DfcmPredictor; tables are lists of u64 values. -/
inductive Predictor where
  | simple (next_value : Nat)
  | fcm (table : List Nat) (last_hash : Nat) (mask : Nat)
  | dfcm (table : List Nat) (last_hash : Nat) (last_value : Nat) (mask : Nat)
  deriving DecidableEq

/-- predict_next of src/predictor.rs.  Out-of-bounds table indexing
(a Rust panic) is modelled totally with getD; claim C10 shows the index
stays in bounds. -/
def Predictor.predict_next : Predictor → Nat
  | .simple v => v
  | .fcm table h _ => table.getD h 0
  | .dfcm table h lv _ => (table.getD h 0 + lv) % 2 ^ 64

/-- update of src/predictor.rs.  All u64 arithmetic wraps mod 2 ^ 64. -/
def Predictor.update : Predictor → Nat → Predictor
  | .simple _, v => .simple v
  | .fcm table h m, v =>
      .fcm (table.set h v) ((((h <<< 5) % 2 ^ 64) ^^^ (v >>> 50)) &&& m) m
  | .dfcm table h lv m, v =>
      let d := (v + 2 ^ 64 - lv) % 2 ^ 64
      .dfcm (table.set h d) ((((h <<< 5) % 2 ^ 64) ^^^ (d >>> 50)) &&& m) v m

/-- SimplePredictor::new of src/predictor.rs. -/
def SimplePredictor.new : Predictor := .simple 0

/-- FcmPredictor::new of src/predictor.rs. -/
def FcmPredictor.new (size : Nat) : Predictor :=
  .fcm (List.replicate size 0) 0 (size - 1)

/-- DfcmPredictor::new of src/predictor.rs. -/
def DfcmPredictor.new (size : Nat) : Predictor :=
  .dfcm (List.replicate size 0) 0 0 (size - 1)

/-- DataPoint of src/lib.rs: a u64 time and an i64 value. -/
structure DataPoint where
  time : Nat
  value : Int
  deriving DecidableEq

/-- END_MARKER of src/encode/std_encoder.rs. -/
def END_MARKER : Nat := 0b111100000000000000000000000000000000

/-- END_MARKER_LEN of src/encode/std_encoder.rs. -/
def END_MARKER_LEN : Nat := 36

/-- State of StdEncoder (src/encode/std_encoder.rs); the owned
BufferedWriter is the accumulated bit list w. -/
structure EncState where
  time : Nat
  delta : Nat
  predictor : Predictor
  leading_zeros : Nat
  first : Bool
  w : List Bool
  deriving DecidableEq

/-- StdEncoder::new: initialize the state and write the 64-bit
timestamp header to the fresh writer. -/
def StdEncoder.new (start : Nat) (p : Predictor) : EncState :=
  { time := start
    delta := 0
    predictor := p
    leading_zeros := 64
    first := true
    w := writeBits start 64 }

/-- StdEncoder::write_first.  The subtraction time - self.time is u64
arithmetic, modelled wrapping; the trailing first := true mirrors the
source (encode immediately overwrites it with false). -/
def StdEncoder.write_first (e : EncState) (time value_bits : Nat) : EncState :=
  let delta := wsub time e.time
  { e with
    delta := delta
    time := time
    predictor := e.predictor.update value_bits
    first := true
    w := e.w ++ [false] ++ writeBits delta 14 ++ writeBits value_bits 64 }

/-- StdEncoder::write_next_timestamp: delta-of-delta bucket encoding.
The dod is the wrapping u64 difference truncated to i32 (the Rust cast
as i32), and the payload written is its low bits (the Rust cast of the
i32 back to u64 sign-extends before write_bits truncates). -/
def StdEncoder.write_next_timestamp (e : EncState) (time : Nat) : EncState :=
  let delta := wsub time e.time
  let dod : Int := toI32 (wsub delta e.delta)
  let bits :=
    if dod = 0 then [false]
    else if -63 ≤ dod ∧ dod ≤ 64 then writeBits 2 2 ++ writeBits (i64bits dod) 7
    else if -255 ≤ dod ∧ dod ≤ 256 then writeBits 6 3 ++ writeBits (i64bits dod) 9
    else if -2047 ≤ dod ∧ dod ≤ 2048 then writeBits 14 4 ++ writeBits (i64bits dod) 12
    else writeBits 15 4 ++ writeBits (i64bits dod) 32
  { e with
    w := e.w ++ bits
    delta := delta
    time := time }

/-- StdEncoder::write_next_value: XOR against the prediction, then
either a single zero bit, a reused leading-zero window, or a new
window (control bit one, 6 bits of leading zeros, significant bits). -/
def StdEncoder.write_next_value (e : EncState) (value_bits : Nat) : EncState :=
  let predicted_bits := e.predictor.predict_next
  let xor := value_bits ^^^ predicted_bits
  let e2 := { e with predictor := e.predictor.update value_bits }
  if xor = 0 then
    { e2 with w := e2.w ++ [false] }
  else
    let leading_zeros := clz64 xor
    if leading_zeros = e2.leading_zeros then
      let significant_digits := 64 - e2.leading_zeros
      { e2 with w := e2.w ++ [true] ++ [false] ++ writeBits xor significant_digits }
    else
      let significant_digits := 64 - leading_zeros
      { e2 with
        w := e2.w ++ [true] ++ [true] ++ writeBits leading_zeros 6 ++
             writeBits xor significant_digits
        leading_zeros := leading_zeros }

/-- StdEncoder::encode (the Encode impl): first record vs subsequent
records; the i64 value is transmuted to its u64 bits. -/
def StdEncoder.encode (e : EncState) (dp : DataPoint) : EncState :=
  let value_bits := i64bits dp.value
  if e.first then
    { StdEncoder.write_first e dp.time value_bits with first := false }
  else
    StdEncoder.write_next_value (StdEncoder.write_next_timestamp e dp.time) value_bits

/-- StdEncoder::close: append the 36-bit END_MARKER and close the
writer, which pads the final byte with zero bits. -/
def StdEncoder.close (e : EncState) : List Nat :=
  toBytes (e.w ++ writeBits END_MARKER 36)

/-- decode::Error of the decode module.  The Stream variant's inner
error (from the external reader) carries no information the codec
inspects and is modelled without payload. -/
inductive Error where
  | EndOfStream
  | InvalidInitialTimestamp
  | InvalidEndOfStream
  | Stream
  deriving DecidableEq

deriving instance DecidableEq for Except

/-- State of StdDecoder (src/decode/std_decoder.rs); the owned
BufferedReader is the remaining bit list r. -/
structure DecState where
  time : Nat
  delta : Nat
  predictor : Predictor
  leading_zeros : Nat
  first : Bool
  done : Bool
  r : List Bool
  deriving DecidableEq

/-- Modelled from the spec (4.1, external BufferedReader): read one
bit; a read past the buffer is a stream error (decode::Error::Stream
after the From conversion applied by the question-mark operator). -/
def DecState.read_bit (d : DecState) : Except Error Bool × DecState :=
  match d.r with
  | [] => (.error .Stream, d)
  | b :: rest => (.ok b, { d with r := rest })

/-- Modelled from the spec (4.1, external BufferedReader): read n bits
zero-extended into the low n bits, most significant first. -/
def DecState.read_bits (d : DecState) (n : Nat) : Except Error Nat × DecState :=
  if n ≤ d.r.length then (.ok (bitsToNat (d.r.take n)), { d with r := d.r.drop n })
  else (.error .Stream, d)

/-- Modelled from the spec (4.1, external BufferedReader): peek n bits
without consuming them. -/
def DecState.peak_bits (d : DecState) (n : Nat) : Except Error Nat × DecState :=
  if n ≤ d.r.length then (.ok (bitsToNat (d.r.take n)), d)
  else (.error .Stream, d)

/-- StdDecoder::new. -/
def StdDecoder.new (r : List Bool) (p : Predictor) : DecState :=
  { time := 0
    delta := 0
    predictor := p
    leading_zeros := 0
    first := true
    done := false
    r := r }

/-- StdDecoder::read_initial_timestamp: read the 64-bit header; any
failure becomes InvalidInitialTimestamp. -/
def StdDecoder.read_initial_timestamp (d : DecState) : Except Error Nat × DecState :=
  match d.read_bits 64 with
  | (.error _, d2) => (.error .InvalidInitialTimestamp, d2)
  | (.ok time, d2) => (.ok time, { d2 with time := time })

/-- StdDecoder::read_first_timestamp: header, then either the
end-of-stream marker (peeked control bit one) or the discarded zero
control bit followed by the 14-bit first delta. -/
def StdDecoder.read_first_timestamp (d : DecState) : Except Error Nat × DecState :=
  match StdDecoder.read_initial_timestamp d with
  | (.error err, d2) => (.error err, d2)
  | (.ok _, d2) =>
    match d2.peak_bits 1 with
    | (.error err, d3) => (.error err, d3)
    | (.ok control_bit, d3) =>
      if control_bit = 1 then
        match d3.read_bits END_MARKER_LEN with
        | (.error _, d4) => (.error .Stream, d4)
        | (.ok marker, d4) =>
          if marker = END_MARKER then (.error .EndOfStream, d4)
          else (.error .InvalidEndOfStream, d4)
      else
        match d3.read_bit with
        | (.error err, d4) => (.error err, d4)
        | (.ok _, d4) =>
          match d4.read_bits 14 with
          | (.error err, d5) => (.error err, d5)
          | (.ok delta, d5) =>
            let d6 := { d5 with
              delta := delta
              time := (d5.time + delta) % 2 ^ 64 }
            (.ok d6.time, d6)

/-- Model of the control-bit loop of StdDecoder::read_next_timestamp:
read up to fuel bits, counting leading one bits and stopping at (and
consuming) the first zero bit. -/
def StdDecoder.readOnes : Nat → DecState → Except Error Nat × DecState
  | 0, d => (.ok 0, d)
  | fuel + 1, d =>
    match d.read_bit with
    | (.error err, d2) => (.error err, d2)
    | (.ok b, d2) =>
      if b then
        match StdDecoder.readOnes fuel d2 with
        | (.error err, d3) => (.error err, d3)
        | (.ok n, d3) => (.ok (n + 1), d3)
      else (.ok 0, d2)

/-- StdDecoder::read_next_timestamp: decode the delta-of-delta bucket.
With four control bits, a zero 32-bit payload is end of stream and the
source returns any non-zero payload directly as the result without
touching time or delta.  Narrow payloads are sign-extended only when
strictly above 2 ^ (size - 1). -/
def StdDecoder.read_next_timestamp (d : DecState) : Except Error Nat × DecState :=
  match StdDecoder.readOnes 4 d with
  | (.error err, d2) => (.error err, d2)
  | (.ok control_bits, d2) =>
    if control_bits = 0 then
      let d3 := { d2 with time := (d2.time + d2.delta) % 2 ^ 64 }
      (.ok d3.time, d3)
    else if control_bits = 4 then
      match d2.read_bits 32 with
      | (.error _, d3) => (.error .Stream, d3)
      | (.ok dod, d3) =>
        if dod = 0 then (.error .EndOfStream, d3) else (.ok dod, d3)
    else
      let size := if control_bits = 1 then 7 else if control_bits = 2 then 9 else 12
      match d2.read_bits size with
      | (.error err, d3) => (.error err, d3)
      | (.ok dod0, d3) =>
        let dod := if 1 <<< (size - 1) < dod0
                   then dod0 ||| (((2 ^ 64 - 1) <<< size) % 2 ^ 64)
                   else dod0
        let delta2 := (d3.delta + dod) % 2 ^ 64
        let d4 := { d3 with
          delta := delta2
          time := (d3.time + delta2) % 2 ^ 64 }
        (.ok d4.time, d4)

/-- StdDecoder::read_first_value: 64 raw bits, absorbed by the
predictor. -/
def StdDecoder.read_first_value (d : DecState) : Except Error Nat × DecState :=
  match d.read_bits 64 with
  | (.error _, d2) => (.error .Stream, d2)
  | (.ok bits, d2) => (.ok bits, { d2 with predictor := d2.predictor.update bits })

/-- StdDecoder::read_next_value: on a zero control bit the source
returns the prediction without updating the predictor; otherwise it
reads the window bit, possibly a new 6-bit leading-zero count, the
significant bits, and updates the predictor with the decoded value. -/
def StdDecoder.read_next_value (d : DecState) : Except Error Nat × DecState :=
  match d.read_bit with
  | (.error err, d2) => (.error err, d2)
  | (.ok control_bit, d2) =>
    let predicted_value := d2.predictor.predict_next
    if control_bit = false then
      (.ok predicted_value, d2)
    else
      match d2.read_bit with
      | (.error err, d3) => (.error err, d3)
      | (.ok zeros_bit, d3) =>
        match (if zeros_bit then
                 match d3.read_bits 6 with
                 | (.error err, d4) => (.error err, d4)
                 | (.ok n, d4) => (.ok (), { d4 with leading_zeros := n })
               else (.ok (), d3) : Except Error Unit × DecState) with
        | (.error err, d4) => (.error err, d4)
        | (.ok _, d4) =>
          match d4.read_bits (64 - d4.leading_zeros) with
          | (.error _, d5) => (.error .Stream, d5)
          | (.ok bits, d5) =>
            let value_bits := predicted_value ^^^ bits
            (.ok value_bits, { d5 with predictor := d5.predictor.update value_bits })

/-- StdDecoder::next (the Decode impl): sticky done check, first vs
subsequent record, and done latching applied exactly to the
EndOfStream error of the two timestamp readers. -/
def StdDecoder.next (d : DecState) : Except Error DataPoint × DecState :=
  if d.done then (.error .EndOfStream, d)
  else if d.first then
    let d1 := { d with first := false }
    match StdDecoder.read_first_timestamp d1 with
    | (.error err, d2) =>
      (.error err, if err = .EndOfStream then { d2 with done := true } else d2)
    | (.ok time, d2) =>
      match StdDecoder.read_first_value d2 with
      | (.error err, d3) => (.error err, d3)
      | (.ok value_bits, d3) => (.ok { time := time, value := toI64 value_bits }, d3)
  else
    match StdDecoder.read_next_timestamp d with
    | (.error err, d2) =>
      (.error err, if err = .EndOfStream then { d2 with done := true } else d2)
    | (.ok time, d2) =>
      match StdDecoder.read_next_value d2 with
      | (.error err, d3) => (.error err, d3)
      | (.ok value_bits, d3) => (.ok { time := time, value := toI64 value_bits }, d3)


/-! Basic facts about bit sequences. -/

theorem bitsToNat_foldl (l : List Bool) (a : Nat) :
    l.foldl (fun acc b => 2 * acc + cond b 1 0) a = a * 2 ^ l.length + bitsToNat l := by
  induction l generalizing a with
  | nil => simp [bitsToNat]
  | cons b l ih =>
    simp only [List.foldl_cons, List.length_cons, bitsToNat]
    rw [ih, ih (2 * 0 + cond b 1 0)]
    ring

theorem bitsToNat_cons (b : Bool) (l : List Bool) :
    bitsToNat (b :: l) = cond b 1 0 * 2 ^ l.length + bitsToNat l := by
  have h := bitsToNat_foldl l (2 * 0 + cond b 1 0)
  simpa [bitsToNat] using h

theorem bitsToNat_lt (l : List Bool) : bitsToNat l < 2 ^ l.length := by
  induction l with
  | nil => simp [bitsToNat]
  | cons b l ih =>
    rw [bitsToNat_cons]
    have h2 : 2 ^ (b :: l).length = 2 * 2 ^ l.length := by
      simp [List.length_cons, pow_succ]; ring
    rw [h2]
    cases b <;> simp <;> omega

theorem writeBits_length (v n : Nat) : (writeBits v n).length = n := by
  simp [writeBits]

theorem writeBits_succ (v n : Nat) :
    writeBits v (n + 1) = v.testBit n :: writeBits v n := by
  simp only [writeBits, List.range_succ_eq_map, List.map_cons, List.map_map]
  congr 1
  apply List.map_congr_left
  intro a ha
  rw [List.mem_range] at ha
  simp only [Function.comp_apply]
  congr 1
  omega

theorem bitsToNat_writeBits (v n : Nat) : bitsToNat (writeBits v n) = v % 2 ^ n := by
  induction n with
  | zero => simp [writeBits, bitsToNat, Nat.mod_one]
  | succ n ih =>
    have hbit : cond (v.testBit n) 1 0 = v / 2 ^ n % 2 := by
      rw [Nat.testBit_to_div_mod]
      rcases Nat.mod_two_eq_zero_or_one (v / 2 ^ n) with h | h <;> simp [h]
    have hsplit : v % 2 ^ (n + 1) = v % 2 ^ n + 2 ^ n * (v / 2 ^ n % 2) := by
      rw [pow_succ, Nat.mod_mul]
    rw [writeBits_succ, bitsToNat_cons, writeBits_length, ih, hbit, hsplit]
    ring

theorem writeBits_mod (v n : Nat) : writeBits (v % 2 ^ n) n = writeBits v n := by
  apply List.map_congr_left
  intro i hi
  rw [List.mem_range] at hi
  rw [Nat.testBit_mod_two_pow]
  have : n - 1 - i < n := by omega
  simp [this]

theorem writeBits_lt (v n : Nat) (h : v < 2 ^ n) :
    bitsToNat (writeBits v n) = v := by
  rw [bitsToNat_writeBits, Nat.mod_eq_of_lt h]

/-! Reading back exactly what was written. -/

theorem read_bits_append (d : DecState) (v n : Nat) (rest : List Bool)
    (h : d.r = writeBits v n ++ rest) :
    d.read_bits n = (.ok (v % 2 ^ n), { d with r := rest }) := by
  unfold DecState.read_bits
  rw [h]
  have hlen : n ≤ (writeBits v n ++ rest).length := by
    simp [writeBits_length]
  rw [if_pos hlen, List.take_left' (writeBits_length v n),
    List.drop_left' (writeBits_length v n), bitsToNat_writeBits]

theorem read_bit_cons (d : DecState) (b : Bool) (rest : List Bool)
    (h : d.r = b :: rest) :
    d.read_bit = (.ok b, { d with r := rest }) := by
  unfold DecState.read_bit
  rw [h]

theorem peak_bits_one (d : DecState) (b : Bool) (rest : List Bool)
    (h : d.r = b :: rest) :
    d.peak_bits 1 = (.ok (cond b 1 0), d) := by
  unfold DecState.peak_bits
  rw [h]
  simp [bitsToNat]

/-! Bit length and leading zeros. -/

theorem bitLenAux_zero (fuel : Nat) : bitLenAux fuel 0 = 0 := by
  cases fuel <;> simp [bitLenAux]

theorem bitLenAux_pos (fuel x : Nat) (h : x < 2 ^ fuel) (hx : x ≠ 0) :
    1 ≤ bitLenAux fuel x := by
  cases fuel with
  | zero => simp at h; omega
  | succ fuel => simp [bitLenAux, hx]

theorem bitLenAux_lt (fuel : Nat) : ∀ x, x < 2 ^ fuel → x < 2 ^ bitLenAux fuel x := by
  induction fuel with
  | zero => intro x h; simpa [bitLenAux] using h
  | succ fuel ih =>
    intro x h
    by_cases hx : x = 0
    · simp [bitLenAux, hx]
    · have hdiv : x / 2 < 2 ^ fuel := by
        rw [pow_succ] at h; omega
      have := ih (x / 2) hdiv
      simp only [bitLenAux, hx, if_false]
      rw [pow_succ]
      omega

theorem bitLenAux_le (fuel : Nat) : ∀ x n, x < 2 ^ n → n ≤ fuel → bitLenAux fuel x ≤ n := by
  induction fuel with
  | zero => intro x n _ _; simp [bitLenAux]
  | succ fuel ih =>
    intro x n h hn
    by_cases hx : x = 0
    · simp [bitLenAux, hx]
    · have hn1 : 1 ≤ n := by
        by_contra hc
        have : n = 0 := by omega
        subst this
        simp at h
        omega
      have hdiv : x / 2 < 2 ^ (n - 1) := by
        have h2 : 2 ^ n = 2 * 2 ^ (n - 1) := by
          conv_lhs => rw [show n = (n - 1) + 1 by omega]
          rw [pow_succ]; ring
        omega
      have := ih (x / 2) (n - 1) hdiv (by omega)
      simp only [bitLenAux, hx, if_false]
      omega

theorem clz64_le (x : Nat) (hx : x ≠ 0) (hlt : x < 2 ^ 64) : clz64 x ≤ 63 := by
  unfold clz64
  have := bitLenAux_pos 64 x hlt hx
  omega

theorem lt_two_pow_clz (x : Nat) (hlt : x < 2 ^ 64) : x < 2 ^ (64 - clz64 x) := by
  unfold clz64
  have h1 := bitLenAux_lt 64 x hlt
  have h2 := bitLenAux_le 64 x 64 hlt (le_refl 64)
  have : 64 - (64 - bitLenAux 64 x) = bitLenAux 64 x := by omega
  rw [this]
  exact h1

/-! Disjoint-or arithmetic for sign extension. -/

theorem or_mask_eq_add (w a : Nat) (hw : w ≤ 64) (ha : a < 2 ^ w) :
    a ||| (2 ^ 64 - 2 ^ w) = 2 ^ 64 - 2 ^ w + a := by
  have hmul : 2 ^ w * 2 ^ (64 - w) = 2 ^ 64 := by
    rw [← pow_add]; congr 1; omega
  have h1 : 2 ^ 64 - 2 ^ w = 2 ^ w * (2 ^ (64 - w) - 1) := by
    rw [Nat.mul_sub_one]
    omega
  rw [h1, Nat.or_comm, ← Nat.mul_add_lt_is_or ha]

theorem shl_mask (w : Nat) (hw : w ≤ 64) :
    ((2 ^ 64 - 1) <<< w) % 2 ^ 64 = 2 ^ 64 - 2 ^ w := by
  rw [Nat.shiftLeft_eq]
  have hle : 2 ^ w ≤ 2 ^ 64 := Nat.pow_le_pow_right (by norm_num) hw
  have h1 : 1 ≤ 2 ^ w := Nat.one_le_two_pow
  have hmul : (2 ^ 64 - 1) * 2 ^ w = 2 ^ 64 - 2 ^ w + (2 ^ w - 1) * 2 ^ 64 := by
    rw [tsub_mul, tsub_mul]
    have h2 : 2 ^ 64 ≤ 2 ^ 64 * 2 ^ w := Nat.le_mul_of_pos_right _ (by positivity)
    have h3 : 2 ^ 64 * 2 ^ w = 2 ^ w * 2 ^ 64 := by ring
    omega
  rw [hmul, Nat.add_mul_mod_self_right, Nat.mod_eq_of_lt (by omega)]

/-! Two's-complement conversion arithmetic. -/

theorem i64bits_lt (x : Int) : i64bits x < 2 ^ 64 := by
  unfold i64bits
  omega

theorem i64bits_toI64 (n : Nat) (h : n < 2 ^ 64) : i64bits (toI64 n) = n := by
  unfold i64bits toI64
  split <;> omega

theorem toI64_i64bits (x : Int) (h1 : -(2 ^ 63) ≤ x) (h2 : x < 2 ^ 63) :
    toI64 (i64bits x) = x := by
  unfold i64bits toI64
  split <;> omega

theorem toI32_range (n : Nat) : -(2 ^ 31) ≤ toI32 n ∧ toI32 n < 2 ^ 31 := by
  unfold toI32
  split <;> omega

theorem toI32_eq_toI64 (n : Nat) (h : n < 2 ^ 64)
    (h1 : -2047 ≤ toI64 n) (h2 : toI64 n ≤ 2048) : toI32 n = toI64 n := by
  simp only [toI32, toI64] at h1 h2 ⊢
  split_ifs at h1 h2 ⊢ <;> omega

theorem wsub_lt (a b : Nat) : wsub a b < 2 ^ 64 := by
  unfold wsub
  omega

theorem wsub_add_cancel (a b : Nat) (ha : a < 2 ^ 64) (hb : b < 2 ^ 64) :
    (b + wsub a b) % 2 ^ 64 = a := by
  unfold wsub
  omega

theorem wsub_eq_zero (a b : Nat) (ha : a < 2 ^ 64) (hb : b < 2 ^ 64)
    (h : wsub a b = 0) : a = b := by
  unfold wsub at h
  omega

/-! Byte chunking and its inverse. -/

theorem writeBits_bitsToNat_eight :
    ∀ b0 b1 b2 b3 b4 b5 b6 b7 : Bool,
      writeBits (bitsToNat [b0, b1, b2, b3, b4, b5, b6, b7]) 8 =
        [b0, b1, b2, b3, b4, b5, b6, b7] := by
  decide

theorem chunk8_spec : ∀ (n : Nat) (L : List Bool), L.length = 8 * n →
    bytesToBits (chunk8 L) = L ∧ (chunk8 L).length = n := by
  intro n
  induction n with
  | zero =>
    intro L h
    have hL : L = [] := List.eq_nil_of_length_eq_zero (by omega)
    subst hL
    simp [chunk8, bytesToBits]
  | succ n ih =>
    intro L h
    match L, h with
    | b0 :: b1 :: b2 :: b3 :: b4 :: b5 :: b6 :: b7 :: rest, h =>
      have hrest : rest.length = 8 * n := by
        simp [List.length_cons] at h
        omega
      have := ih rest hrest
      simp only [chunk8, bytesToBits, List.length_cons]
      rw [writeBits_bitsToNat_eight, this.1]
      refine ⟨rfl, ?_⟩
      rw [this.2]

theorem toBytes_spec (L : List Bool) (n : Nat) (h : L.length + (8 - L.length % 8) % 8 = 8 * n) :
    bytesToBits (toBytes L) = L ++ List.replicate ((8 - L.length % 8) % 8) false ∧
      (toBytes L).length = n := by
  unfold toBytes
  have hlen : (L ++ List.replicate ((8 - L.length % 8) % 8) false).length = 8 * n := by
    simp [List.length_append, List.length_replicate]
    omega
  have := chunk8_spec n _ hlen
  exact ⟨this.1, this.2⟩

/-! Computing the decoder's control-bit loop on known prefixes. -/

theorem readOnes_zero (d : DecState) : StdDecoder.readOnes 0 d = (.ok 0, d) := rfl

theorem readOnes_succ_false (fuel : Nat) (d : DecState) (tail : List Bool)
    (h : d.r = false :: tail) :
    StdDecoder.readOnes (fuel + 1) d = (.ok 0, { d with r := tail }) := by
  unfold StdDecoder.readOnes
  rw [read_bit_cons d false tail h]
  rfl

theorem readOnes_succ_true_ok (fuel : Nat) (d : DecState) (tail : List Bool)
    (n : Nat) (d3 : DecState) (h : d.r = true :: tail)
    (hres : StdDecoder.readOnes fuel { d with r := tail } = (.ok n, d3)) :
    StdDecoder.readOnes (fuel + 1) d = (.ok (n + 1), d3) := by
  unfold StdDecoder.readOnes
  rw [read_bit_cons d true tail h]
  simp [hres]

theorem readOnes4_k0 (d : DecState) (tail : List Bool)
    (h : d.r = false :: tail) :
    StdDecoder.readOnes 4 d = (.ok 0, { d with r := tail }) :=
  readOnes_succ_false 3 d tail h

theorem readOnes4_k1 (d : DecState) (tail : List Bool)
    (h : d.r = true :: false :: tail) :
    StdDecoder.readOnes 4 d = (.ok 1, { d with r := tail }) := by
  refine readOnes_succ_true_ok 3 d (false :: tail) 0 _ h ?_
  exact readOnes_succ_false 2 _ tail (by simp)

theorem readOnes4_k2 (d : DecState) (tail : List Bool)
    (h : d.r = true :: true :: false :: tail) :
    StdDecoder.readOnes 4 d = (.ok 2, { d with r := tail }) := by
  refine readOnes_succ_true_ok 3 d (true :: false :: tail) 1 _ h ?_
  refine readOnes_succ_true_ok 2 _ (false :: tail) 0 _ (by simp) ?_
  exact readOnes_succ_false 1 _ tail (by simp)

theorem readOnes4_k3 (d : DecState) (tail : List Bool)
    (h : d.r = true :: true :: true :: false :: tail) :
    StdDecoder.readOnes 4 d = (.ok 3, { d with r := tail }) := by
  refine readOnes_succ_true_ok 3 d (true :: true :: false :: tail) 2 _ h ?_
  refine readOnes_succ_true_ok 2 _ (true :: false :: tail) 1 _ (by simp) ?_
  refine readOnes_succ_true_ok 1 _ (false :: tail) 0 _ (by simp) ?_
  exact readOnes_succ_false 0 _ tail (by simp)

theorem readOnes4_k4 (d : DecState) (tail : List Bool)
    (h : d.r = true :: true :: true :: true :: tail) :
    StdDecoder.readOnes 4 d = (.ok 4, { d with r := tail }) := by
  refine readOnes_succ_true_ok 3 d (true :: true :: true :: tail) 3 _ h ?_
  refine readOnes_succ_true_ok 2 _ (true :: true :: tail) 2 _ (by simp) ?_
  refine readOnes_succ_true_ok 1 _ (true :: tail) 1 _ (by simp) ?_
  refine readOnes_succ_true_ok 0 _ tail 0 _ (by simp) ?_
  exact readOnes_zero _

/-- Decoding one bucket-coded timestamp payload: after k one bits and a
zero bit (k = 1, 2, 3 selecting width w = 7, 9, 12), the decoder reads
the w-bit payload p, sign-extends it exactly when p > 2 ^ (w - 1), and
wrapping-adds the result to delta and then delta to time. -/
theorem read_ts_payload (d : DecState) (k w p dodv : Nat) (rest : List Bool)
    (hk : (k = 1 ∧ w = 7) ∨ (k = 2 ∧ w = 9) ∨ (k = 3 ∧ w = 12))
    (hp : p < 2 ^ w)
    (hdod : dodv = if 1 <<< (w - 1) < p then p ||| (((2 ^ 64 - 1) <<< w) % 2 ^ 64) else p)
    (hr : d.r = List.replicate k true ++ [false] ++ writeBits p w ++ rest) :
    StdDecoder.read_next_timestamp d =
      (.ok ((d.time + (d.delta + dodv) % 2 ^ 64) % 2 ^ 64),
       { d with
         r := rest
         delta := (d.delta + dodv) % 2 ^ 64
         time := (d.time + (d.delta + dodv) % 2 ^ 64) % 2 ^ 64 }) := by
  have hmod : p % 2 ^ w = p := Nat.mod_eq_of_lt hp
  obtain ⟨tm, dl, pr, lz, fi, dn, r⟩ := d
  rcases hk with ⟨hk1, hw⟩ | ⟨hk1, hw⟩ | ⟨hk1, hw⟩ <;> subst hk1 hw <;>
    [(have hr2 : r = true :: false :: (writeBits p 7 ++ rest) := by simpa using hr);
     (have hr2 : r = true :: true :: false :: (writeBits p 9 ++ rest) := by simpa using hr);
     (have hr2 : r = true :: true :: true :: false :: (writeBits p 12 ++ rest) := by simpa using hr)] <;>
  subst hr2 <;>
  unfold StdDecoder.read_next_timestamp <;>
  [rw [readOnes4_k1 _ _ rfl]; rw [readOnes4_k2 _ _ rfl]; rw [readOnes4_k3 _ _ rfl]] <;>
  norm_num <;>
  [rw [read_bits_append _ p 7 rest rfl]; rw [read_bits_append _ p 9 rest rfl];
   rw [read_bits_append _ p 12 rest rfl]] <;>
  rw [hmod] <;>
  simp [hdod]

/-! Sign extension reproduces the encoded delta-of-delta in each bucket. -/

theorem dodExt7 (dod : Int) (h1 : -63 ≤ dod) (h2 : dod ≤ 64) :
    (if 1 <<< (7 - 1) < i64bits dod % 2 ^ 7
     then (i64bits dod % 2 ^ 7) ||| (((2 ^ 64 - 1) <<< 7) % 2 ^ 64)
     else i64bits dod % 2 ^ 7) = i64bits dod := by
  rw [shl_mask 7 (by norm_num)]
  by_cases hpos : 0 ≤ dod
  · have hvn : i64bits dod % 2 ^ 7 = i64bits dod := by unfold i64bits; omega
    rw [hvn, if_neg]
    simp only [show (1 : Nat) <<< (7 - 1) = 64 from rfl]
    unfold i64bits
    omega
  · have hp1 : i64bits dod % 2 ^ 7 = (dod + 128).toNat := by unfold i64bits; omega
    have hlt : (dod + 128).toNat < 2 ^ 7 := by omega
    have hgt : 1 <<< (7 - 1) < (dod + 128).toNat := by
      simp only [show (1 : Nat) <<< (7 - 1) = 64 from rfl]
      omega
    rw [hp1, if_pos hgt, or_mask_eq_add 7 _ (by norm_num) hlt]
    unfold i64bits
    omega

theorem dodExt9 (dod : Int) (h1 : -255 ≤ dod) (h2 : dod ≤ 256) :
    (if 1 <<< (9 - 1) < i64bits dod % 2 ^ 9
     then (i64bits dod % 2 ^ 9) ||| (((2 ^ 64 - 1) <<< 9) % 2 ^ 64)
     else i64bits dod % 2 ^ 9) = i64bits dod := by
  rw [shl_mask 9 (by norm_num)]
  by_cases hpos : 0 ≤ dod
  · have hvn : i64bits dod % 2 ^ 9 = i64bits dod := by unfold i64bits; omega
    rw [hvn, if_neg]
    simp only [show (1 : Nat) <<< (9 - 1) = 256 from rfl]
    unfold i64bits
    omega
  · have hp1 : i64bits dod % 2 ^ 9 = (dod + 512).toNat := by unfold i64bits; omega
    have hlt : (dod + 512).toNat < 2 ^ 9 := by omega
    have hgt : 1 <<< (9 - 1) < (dod + 512).toNat := by
      simp only [show (1 : Nat) <<< (9 - 1) = 256 from rfl]
      omega
    rw [hp1, if_pos hgt, or_mask_eq_add 9 _ (by norm_num) hlt]
    unfold i64bits
    omega

theorem dodExt12 (dod : Int) (h1 : -2047 ≤ dod) (h2 : dod ≤ 2048) :
    (if 1 <<< (12 - 1) < i64bits dod % 2 ^ 12
     then (i64bits dod % 2 ^ 12) ||| (((2 ^ 64 - 1) <<< 12) % 2 ^ 64)
     else i64bits dod % 2 ^ 12) = i64bits dod := by
  rw [shl_mask 12 (by norm_num)]
  by_cases hpos : 0 ≤ dod
  · have hvn : i64bits dod % 2 ^ 12 = i64bits dod := by unfold i64bits; omega
    rw [hvn, if_neg]
    simp only [show (1 : Nat) <<< (12 - 1) = 2048 from rfl]
    unfold i64bits
    omega
  · have hp1 : i64bits dod % 2 ^ 12 = (dod + 4096).toNat := by unfold i64bits; omega
    have hlt : (dod + 4096).toNat < 2 ^ 12 := by omega
    have hgt : 1 <<< (12 - 1) < (dod + 4096).toNat := by
      simp only [show (1 : Nat) <<< (12 - 1) = 2048 from rfl]
      omega
    rw [hp1, if_pos hgt, or_mask_eq_add 12 _ (by norm_num) hlt]
    unfold i64bits
    omega

/-! Emitted bits of the encoder timestamp buckets. -/

theorem wnt_bits_bucket7 (e : EncState) (t : Nat)
    (h0 : toI32 (wsub (wsub t e.time) e.delta) ≠ 0)
    (hb : -63 ≤ toI32 (wsub (wsub t e.time) e.delta) ∧ toI32 (wsub (wsub t e.time) e.delta) ≤ 64) :
    (StdEncoder.write_next_timestamp e t).w.drop e.w.length =
      [true, false] ++ writeBits (i64bits (toI32 (wsub (wsub t e.time) e.delta))) 7 := by
  simp only [StdEncoder.write_next_timestamp]
  rw [if_neg h0, if_pos hb]
  simp [List.drop_left, show writeBits 2 2 = [true, false] from by decide]

theorem wnt_bits_bucket9 (e : EncState) (t : Nat)
    (h0 : toI32 (wsub (wsub t e.time) e.delta) ≠ 0)
    (hn7 : ¬(-63 ≤ toI32 (wsub (wsub t e.time) e.delta) ∧ toI32 (wsub (wsub t e.time) e.delta) ≤ 64))
    (hb : -255 ≤ toI32 (wsub (wsub t e.time) e.delta) ∧ toI32 (wsub (wsub t e.time) e.delta) ≤ 256) :
    (StdEncoder.write_next_timestamp e t).w.drop e.w.length =
      [true, true, false] ++ writeBits (i64bits (toI32 (wsub (wsub t e.time) e.delta))) 9 := by
  simp only [StdEncoder.write_next_timestamp]
  rw [if_neg h0, if_neg hn7, if_pos hb]
  simp [List.drop_left, show writeBits 6 3 = [true, true, false] from by decide]

theorem wnt_bits_bucket12 (e : EncState) (t : Nat)
    (h0 : toI32 (wsub (wsub t e.time) e.delta) ≠ 0)
    (hn7 : ¬(-63 ≤ toI32 (wsub (wsub t e.time) e.delta) ∧ toI32 (wsub (wsub t e.time) e.delta) ≤ 64))
    (hn9 : ¬(-255 ≤ toI32 (wsub (wsub t e.time) e.delta) ∧ toI32 (wsub (wsub t e.time) e.delta) ≤ 256))
    (hb : -2047 ≤ toI32 (wsub (wsub t e.time) e.delta) ∧ toI32 (wsub (wsub t e.time) e.delta) ≤ 2048) :
    (StdEncoder.write_next_timestamp e t).w.drop e.w.length =
      [true, true, true, false] ++ writeBits (i64bits (toI32 (wsub (wsub t e.time) e.delta))) 12 := by
  simp only [StdEncoder.write_next_timestamp]
  rw [if_neg h0, if_neg hn7, if_neg hn9, if_pos hb]
  simp [List.drop_left, show writeBits 14 4 = [true, true, true, false] from by decide]

/-- Bucket round-trip, helper form: a timestamp whose dod falls in the
7/9/12-bit buckets decodes to exactly that dod added (wrapping, as
two's-complement u64) to the decoder's delta, and delta to time. -/
theorem read_ts_bucket_spec (e : EncState) (d : DecState) (t : Nat) (rest : List Bool)
    (het : e.time < 2 ^ 64) (hed : e.delta < 2 ^ 64) (ht : t < 2 ^ 64)
    (h1 : -2047 ≤ toI32 (wsub (wsub t e.time) e.delta))
    (h2 : toI32 (wsub (wsub t e.time) e.delta) ≤ 2048)
    (h0 : toI32 (wsub (wsub t e.time) e.delta) ≠ 0)
    (hr : d.r = (StdEncoder.write_next_timestamp e t).w.drop e.w.length ++ rest) :
    StdDecoder.read_next_timestamp d =
      (.ok ((d.time + (d.delta + i64bits (toI32 (wsub (wsub t e.time) e.delta))) % 2 ^ 64) % 2 ^ 64),
       { d with
         r := rest
         delta := (d.delta + i64bits (toI32 (wsub (wsub t e.time) e.delta))) % 2 ^ 64
         time := (d.time + (d.delta + i64bits (toI32 (wsub (wsub t e.time) e.delta))) % 2 ^ 64) % 2 ^ 64 }) := by
  by_cases hb7 : -63 ≤ toI32 (wsub (wsub t e.time) e.delta) ∧ toI32 (wsub (wsub t e.time) e.delta) ≤ 64
  · refine read_ts_payload d 1 7 (i64bits (toI32 (wsub (wsub t e.time) e.delta)) % 2 ^ 7) _ rest
      (Or.inl ⟨rfl, rfl⟩) (Nat.mod_lt _ (by norm_num)) (dodExt7 _ hb7.1 hb7.2).symm ?_
    rw [hr, wnt_bits_bucket7 e t h0 hb7, writeBits_mod]
    simp
  · by_cases hb9 : -255 ≤ toI32 (wsub (wsub t e.time) e.delta) ∧ toI32 (wsub (wsub t e.time) e.delta) ≤ 256
    · refine read_ts_payload d 2 9 (i64bits (toI32 (wsub (wsub t e.time) e.delta)) % 2 ^ 9) _ rest
        (Or.inr (Or.inl ⟨rfl, rfl⟩)) (Nat.mod_lt _ (by norm_num)) (dodExt9 _ hb9.1 hb9.2).symm ?_
      rw [hr, wnt_bits_bucket9 e t h0 hb7 hb9, writeBits_mod]
      simp
    · refine read_ts_payload d 3 12 (i64bits (toI32 (wsub (wsub t e.time) e.delta)) % 2 ^ 12) _ rest
        (Or.inr (Or.inr ⟨rfl, rfl⟩)) (Nat.mod_lt _ (by norm_num)) (dodExt12 _ h1 h2).symm ?_
      rw [hr, wnt_bits_bucket12 e t h0 hb7 hb9 ⟨h1, h2⟩, writeBits_mod]
      simp


/-- C6 (Bucket round-trip).  For every delta-of-delta value that the
encoder places in one of the 7, 9 or 12 bit buckets (ranges -63..64,
-255..256, -2047..2048, excluding 0 which takes the single-bit code),
encoding the timestamp with StdEncoder::write_next_timestamp and
decoding with StdDecoder::read_next_timestamp reproduces the dod
exactly: the decoder's delta is wrapping-increased by exactly that dod
(as a two's-complement u64) and its time by the new delta, including
negative values near the bucket minimum and the positive boundary
values 64, 256 and 2048. -/
theorem C6_bucket_roundtrip (e : EncState) (d : DecState) (t : Nat) (rest : List Bool)
    (het : e.time < 2 ^ 64) (hed : e.delta < 2 ^ 64) (ht : t < 2 ^ 64)
    (h1 : -2047 ≤ toI32 (wsub (wsub t e.time) e.delta))
    (h2 : toI32 (wsub (wsub t e.time) e.delta) ≤ 2048)
    (h0 : toI32 (wsub (wsub t e.time) e.delta) ≠ 0)
    (hr : d.r = (StdEncoder.write_next_timestamp e t).w.drop e.w.length ++ rest) :
    StdDecoder.read_next_timestamp d =
      (.ok ((d.time + (d.delta + i64bits (toI32 (wsub (wsub t e.time) e.delta))) % 2 ^ 64) % 2 ^ 64),
       { d with
         r := rest
         delta := (d.delta + i64bits (toI32 (wsub (wsub t e.time) e.delta))) % 2 ^ 64
         time := (d.time + (d.delta + i64bits (toI32 (wsub (wsub t e.time) e.delta))) % 2 ^ 64) % 2 ^ 64 }) :=
  read_ts_bucket_spec e d t rest het hed ht h1 h2 h0 hr

theorem C6_bucket_roundtrip_witness :
    toI32 (wsub (wsub 5 0) 0) = 5 ∧
    StdDecoder.read_next_timestamp
        ⟨0, 0, .simple 0, 0, false, false,
         (StdEncoder.write_next_timestamp ⟨0, 0, .simple 0, 64, false, []⟩ 5).w.drop
             (List.length ([] : List Bool)) ++ []⟩ =
      (.ok 5, ⟨5, 5, .simple 0, 0, false, false, []⟩) := by
  constructor
  · decide
  · have h := C6_bucket_roundtrip ⟨0, 0, .simple 0, 64, false, []⟩
      ⟨0, 0, .simple 0, 0, false, false, _⟩ 5 [] (by decide) (by decide) (by decide)
      (by decide) (by decide) (by decide) rfl
    exact h.trans (by decide)

/-- C5 (corrected).  Sign extension on decode: a bucket payload of width
w in 7, 9, 12 is OR-ed with the high mask 2 ^ 64 - 2 ^ w (the
complement of the low-w-bit mask) before the wrapping delta and time
updates exactly when the payload is strictly greater than 2 ^ (w - 1);
the boundary payload equal to 2 ^ (w - 1), although its most
significant bit is set, is not sign-extended (see the counterexample),
which is what makes the positive bucket boundaries decode correctly. -/
theorem C5_sign_extension (d : DecState) (k w payload : Nat) (rest : List Bool)
    (hk : (k = 1 ∧ w = 7) ∨ (k = 2 ∧ w = 9) ∨ (k = 3 ∧ w = 12))
    (hpl : payload < 2 ^ w) (hmsb : 2 ^ (w - 1) < payload)
    (hr : d.r = List.replicate k true ++ [false] ++ writeBits payload w ++ rest) :
    StdDecoder.read_next_timestamp d =
      (.ok ((d.time + (d.delta + (payload ||| (2 ^ 64 - 2 ^ w))) % 2 ^ 64) % 2 ^ 64),
       { d with
         r := rest
         delta := (d.delta + (payload ||| (2 ^ 64 - 2 ^ w))) % 2 ^ 64
         time := (d.time + (d.delta + (payload ||| (2 ^ 64 - 2 ^ w))) % 2 ^ 64) % 2 ^ 64 }) := by
  have hw64 : w ≤ 64 := by rcases hk with ⟨_, h⟩ | ⟨_, h⟩ | ⟨_, h⟩ <;> omega
  have hdod : (payload ||| (2 ^ 64 - 2 ^ w)) =
      if 1 <<< (w - 1) < payload
      then payload ||| (((2 ^ 64 - 1) <<< w) % 2 ^ 64)
      else payload := by
    rw [Nat.one_shiftLeft, if_pos hmsb, shl_mask w hw64]
  exact read_ts_payload d k w payload _ rest hk hpl hdod hr

/-- C5 counterexample.  The boundary payload 64 = 2 ^ (7 - 1) in the
7-bit bucket has its most significant bit set, yet the decoder does not
sign-extend it: from delta = 100 it produces delta = 164 (payload
treated as +64), not the 36 = (100 + (64 OR mask)) mod 2 ^ 64 the
claim's sign-extension rule would give. -/
theorem C5_boundary_cex :
    StdDecoder.read_next_timestamp
        ⟨0, 100, .simple 0, 0, false, false, [true, false] ++ writeBits 64 7⟩ =
      (.ok 164, ⟨164, 164, .simple 0, 0, false, false, []⟩) ∧
    (100 + (64 ||| (2 ^ 64 - 2 ^ 7))) % 2 ^ 64 ≠ 164 := by
  constructor
  · decide
  · decide

theorem C5_sign_extension_witness :
    (2 : Nat) ^ (7 - 1) < 65 ∧
    StdDecoder.read_next_timestamp
        ⟨0, 100, .simple 0, 0, false, false,
         List.replicate 1 true ++ [false] ++ writeBits 65 7 ++ []⟩ =
      (.ok 37, ⟨37, 37, .simple 0, 0, false, false, []⟩) := by
  refine ⟨by decide, ?_⟩
  have h := C5_sign_extension ⟨0, 100, .simple 0, 0, false, false, _⟩ 1 7 65 []
    (Or.inl ⟨rfl, rfl⟩) (by decide) (by decide) rfl
  exact h.trans (by decide)

/-- Index invariant of the FCM and DFCM predictors: the rolling hash
and the mask are strictly below the table length. -/
def predictorInv (p : Predictor) : Prop :=
  match p with
  | .simple _ => True
  | .fcm table h m => h < table.length ∧ m < table.length
  | .dfcm table h _ m => h < table.length ∧ m < table.length

/-- C10.  For FcmPredictor and DfcmPredictor built by new(size) with
size a power of two and size >= 1, the hash index starts at 0 <= size-1
and every update masks the new hash with size - 1, so the table index
used by predict_next and update always stays strictly below the table
length (the Rust indexing never panics). -/
theorem C10_hash_inv :
    (∀ size : Nat, 1 ≤ size → (∃ k, size = 2 ^ k) →
      predictorInv (FcmPredictor.new size) ∧ predictorInv (DfcmPredictor.new size)) ∧
    (∀ (p : Predictor) (v : Nat), predictorInv p → predictorInv (p.update v)) := by
  constructor
  · intro size h1 _
    constructor <;> simp [predictorInv, FcmPredictor.new, DfcmPredictor.new] <;> omega
  · intro p v hp
    cases p with
    | simple _ => simp [predictorInv, Predictor.update]
    | fcm table h m =>
      obtain ⟨hh, hm⟩ := hp
      constructor
      · simpa [Predictor.update] using lt_of_le_of_lt Nat.and_le_right hm
      · simpa [Predictor.update] using hm
    | dfcm table h lv m =>
      obtain ⟨hh, hm⟩ := hp
      constructor
      · simpa [Predictor.update] using lt_of_le_of_lt Nat.and_le_right hm
      · simpa [Predictor.update] using hm

theorem C10_hash_inv_witness :
    ((1 ≤ 4 ∧ 4 = 2 ^ 2) ∧ predictorInv (FcmPredictor.new 4)) ∧
    (predictorInv (Predictor.fcm [0, 0, 0, 0] 0 3) ∧
     predictorInv ((Predictor.fcm [0, 0, 0, 0] 0 3).update (2 ^ 51))) :=
  ⟨⟨⟨by decide, by decide⟩, (C10_hash_inv.1 4 (by decide) ⟨2, by decide⟩).1⟩,
   ⟨⟨by decide, by decide⟩, C10_hash_inv.2 (Predictor.fcm [0, 0, 0, 0] 0 3) (2 ^ 51) ⟨by decide, by decide⟩⟩⟩

/-- C3 (code bug evaluation).  On the escape prefix 1111 with the
non-zero 32-bit payload 7 the decoder returns the raw payload 7 as the
decoded timestamp and leaves time = 5 and delta = 3 unchanged, instead
of treating 7 as the DoD and returning time + (delta + 7) = 15 as the
claim (and the encoder's symmetric branch) requires. -/
theorem C3_escape_eval :
    StdDecoder.read_next_timestamp
        ⟨5, 3, .simple 0, 0, false, false, [true, true, true, true] ++ writeBits 7 32 ++ [false]⟩ =
      (.ok 7, ⟨5, 3, .simple 0, 0, false, false, [false]⟩) ∧
    (7 : Nat) ≠ (5 + (3 + 7) % 2 ^ 64) % 2 ^ 64 := by
  constructor
  · decide
  · decide

/-- C2 (code bug evaluation).  On a zero value control bit the decoder
returns the prediction (here table[0] = 2 ^ 51 of an FcmPredictor) but
leaves the predictor state untouched, while performing update(pred) as
the claim requires would change the rolling hash (from 0 to 2). -/
theorem C2_zero_bit_eval :
    StdDecoder.read_next_value
        ⟨0, 0, .fcm [2 ^ 51, 0, 0, 0] 0 3, 0, false, false, [false]⟩ =
      (.ok (2 ^ 51), ⟨0, 0, .fcm [2 ^ 51, 0, 0, 0] 0 3, 0, false, false, []⟩) ∧
    (Predictor.fcm [2 ^ 51, 0, 0, 0] 0 3).update
        ((Predictor.fcm [2 ^ 51, 0, 0, 0] 0 3).predict_next) ≠
      Predictor.fcm [2 ^ 51, 0, 0, 0] 0 3 := by
  constructor
  · decide
  · decide

/-- C1 (code bug evaluation).  Encoding the strictly increasing points
(1, 0), (5001, 0) from start time 0 (first delta 1 < 2 ^ 14, second
record DoD 4999 which is 32-bit representable and takes the escape
prefix) and decoding with an identically constructed last-value
predictor yields (1, 0) and then (4999, 0) instead of (5001, 0): the
decoder's escape branch returns the raw payload as the timestamp. -/
theorem C1_roundtrip_eval :
    (StdDecoder.next (StdDecoder.new
        (bytesToBits (StdEncoder.close
          (StdEncoder.encode (StdEncoder.encode (StdEncoder.new 0 SimplePredictor.new)
            ⟨1, 0⟩) ⟨5001, 0⟩)))
        SimplePredictor.new)).1 = .ok ⟨1, 0⟩ ∧
    (StdDecoder.next (StdDecoder.next (StdDecoder.new
        (bytesToBits (StdEncoder.close
          (StdEncoder.encode (StdEncoder.encode (StdEncoder.new 0 SimplePredictor.new)
            ⟨1, 0⟩) ⟨5001, 0⟩)))
        SimplePredictor.new)).2).1 = .ok ⟨4999, 0⟩ ∧
    (⟨4999, 0⟩ : DataPoint) ≠ ⟨5001, 0⟩ := by
  refine ⟨by decide, by decide, by decide⟩

/-! Error classification: the value readers only raise Stream errors. -/

theorem read_bit_err (d d2 : DecState) (e : Error)
    (h : d.read_bit = (.error e, d2)) : e = .Stream := by
  unfold DecState.read_bit at h
  cases hr : d.r with
  | nil =>
    rw [hr] at h
    simp only [Prod.mk.injEq, Except.error.injEq] at h
    exact h.1.symm
  | cons b tail =>
    rw [hr] at h
    simp at h

theorem read_bits_err (d d2 : DecState) (n : Nat) (e : Error)
    (h : d.read_bits n = (.error e, d2)) : e = .Stream := by
  unfold DecState.read_bits at h
  split at h
  · simp at h
  · simp only [Prod.mk.injEq, Except.error.injEq] at h
    exact h.1.symm

theorem read_first_value_err (d d2 : DecState) (e : Error)
    (h : StdDecoder.read_first_value d = (.error e, d2)) : e = .Stream := by
  unfold StdDecoder.read_first_value at h
  rcases hrb : d.read_bits 64 with ⟨res, d3⟩
  rw [hrb] at h
  cases res with
  | error e1 =>
    simp only [Prod.mk.injEq, Except.error.injEq] at h
    exact h.1.symm
  | ok v => simp at h

theorem read_next_value_err (d d2 : DecState) (e : Error)
    (h : StdDecoder.read_next_value d = (.error e, d2)) : e = .Stream := by
  unfold StdDecoder.read_next_value at h
  repeat' split at h
  all_goals simp only [Prod.mk.injEq, Except.error.injEq] at h
  all_goals try exact h.1.symm
  -- control-bit read error
  · obtain ⟨he, -⟩ := h
    subst he
    exact read_bit_err _ _ _ (by assumption)
  -- zero control bit returns the prediction, never an error
  · exact Except.noConfusion h.1
  -- window-bit read error
  · obtain ⟨he, -⟩ := h
    subst he
    exact read_bit_err _ _ _ (by assumption)
  -- error propagated out of the optional 6-bit leading-zero read
  · obtain ⟨he, -⟩ := h
    subst he
    rename_i heq
    split at heq
    · split at heq
      · simp only [Prod.mk.injEq, Except.error.injEq] at heq
        obtain ⟨he2, -⟩ := heq
        subst he2
        exact read_bits_err _ _ _ _ (by assumption)
      · simp at heq
    · simp at heq
  -- a successfully decoded value, never an error
  · exact Except.noConfusion h.1

/-- C9 (corrected).  Only EndOfStream latches the decoder: once a
next() call has returned EndOfStream the done flag is set and every
further next() returns EndOfStream on the unchanged state.  The fatal
errors (InvalidInitialTimestamp, InvalidEndOfStream, Stream) do not set
done (see the counterexample), contrary to the claim. -/
theorem C9_done_latch :
    (∀ d : DecState, d.done = true → StdDecoder.next d = (.error .EndOfStream, d)) ∧
    (∀ (d d2 : DecState) (out : Except Error DataPoint),
      StdDecoder.next d = (out, d2) → out = .error .EndOfStream → d2.done = true) := by
  constructor
  · intro d hd
    unfold StdDecoder.next
    rw [if_pos hd]
  · intro d d2 out h hout
    subst hout
    unfold StdDecoder.next at h
    by_cases hdone : d.done = true
    · rw [if_pos hdone] at h
      simp only [Prod.mk.injEq] at h
      rw [← h.2]
      exact hdone
    · rw [if_neg hdone] at h
      by_cases hfirst : d.first = true
      · rw [if_pos hfirst] at h
        dsimp only at h
        rcases hft : StdDecoder.read_first_timestamp { d with first := false } with ⟨res, dx⟩
        rw [hft] at h
        cases res with
        | error err =>
          simp only [Prod.mk.injEq, Except.error.injEq] at h
          obtain ⟨herr, hd2⟩ := h
          rw [← hd2, if_pos herr]
        | ok time =>
          dsimp only at h
          rcases hfv : StdDecoder.read_first_value dx with ⟨res2, dy⟩
          rw [hfv] at h
          cases res2 with
          | error err =>
            simp only [Prod.mk.injEq, Except.error.injEq] at h
            exact absurd (h.1.symm.trans (read_first_value_err dx dy err hfv)) (by decide)
          | ok vb => simp at h
      · rw [if_neg hfirst] at h
        rcases hnt : StdDecoder.read_next_timestamp d with ⟨res, dx⟩
        rw [hnt] at h
        cases res with
        | error err =>
          simp only [Prod.mk.injEq, Except.error.injEq] at h
          obtain ⟨herr, hd2⟩ := h
          rw [← hd2, if_pos herr]
        | ok time =>
          dsimp only at h
          rcases hnv : StdDecoder.read_next_value dx with ⟨res2, dy⟩
          rw [hnv] at h
          cases res2 with
          | error err =>
            simp only [Prod.mk.injEq, Except.error.injEq] at h
            exact absurd (h.1.symm.trans (read_next_value_err dx dy err hnv)) (by decide)
          | ok vb => simp at h

/-- C9 counterexample.  A decoder over an empty byte stream returns the
fatal error InvalidInitialTimestamp on the first next(); the claim then
requires every subsequent next() to return EndOfStream, but the second
next() returns a Stream error. -/
theorem C9_fatal_cex :
    (StdDecoder.next (StdDecoder.new [] SimplePredictor.new)).1 = .error .InvalidInitialTimestamp ∧
    (StdDecoder.next (StdDecoder.next (StdDecoder.new [] SimplePredictor.new)).2).1 = .error .Stream ∧
    Error.Stream ≠ Error.EndOfStream := by
  refine ⟨by decide, by decide, by decide⟩

theorem C9_done_latch_witness :
    StdDecoder.next ⟨7, 3, .simple 0, 0, false, true, []⟩ =
      (.error .EndOfStream, ⟨7, 3, .simple 0, 0, false, true, []⟩) :=
  C9_done_latch.1 ⟨7, 3, .simple 0, 0, false, true, []⟩ rfl

/-! The empty stream: header followed immediately by the end marker. -/

theorem markerBits_eq :
    writeBits END_MARKER 36 =
      true :: true :: true :: true :: List.replicate 32 false := by
  decide

theorem read_first_ts_marker (d : DecState) (T : Nat) (hT : T < 2 ^ 64) (tail : List Bool)
    (hr : d.r = writeBits T 64 ++ (writeBits END_MARKER 36 ++ tail)) :
    StdDecoder.read_first_timestamp d =
      (.error .EndOfStream,
       { d with
         time := T
         r := tail }) := by
  obtain ⟨tm, dl, pr, lz, fi, dn, r⟩ := d
  have hr2 : r = writeBits T 64 ++ (writeBits END_MARKER 36 ++ tail) := hr
  subst hr2
  unfold StdDecoder.read_first_timestamp StdDecoder.read_initial_timestamp
  rw [read_bits_append _ T 64 _ rfl]
  dsimp only
  rw [Nat.mod_eq_of_lt hT]
  rw [peak_bits_one _ true (true :: true :: true :: (List.replicate 32 false ++ tail))
    (by rw [markerBits_eq]; simp)]
  dsimp only
  simp only [cond_true, if_true]
  have h36 : END_MARKER_LEN = 36 := rfl
  rw [h36, read_bits_append _ END_MARKER 36 tail rfl]
  have hEM : END_MARKER % 2 ^ 36 = END_MARKER := by decide
  rw [hEM]
  dsimp only
  rw [if_pos rfl]

theorem next_marker (T : Nat) (p : Predictor) (hT : T < 2 ^ 64) (tail : List Bool) :
    (StdDecoder.next (StdDecoder.new
        (writeBits T 64 ++ (writeBits END_MARKER 36 ++ tail)) p)).1 =
      .error .EndOfStream := by
  unfold StdDecoder.next StdDecoder.new
  dsimp only
  rw [read_first_ts_marker _ T hT tail rfl]
  simp

/-- C7 (Empty stream).  For every start time T, close() right after
StdEncoder::new(T, w, p) emits exactly 13 bytes (64-bit header, 36-bit
end marker, zero padding to a byte boundary) and the first
StdDecoder::next() on those bytes returns EndOfStream; for
T = 1482268055 the bytes are exactly
00 00 00 00 58 59 9D 97 F0 00 00 00 00. -/
theorem C7_empty_stream (T : Nat) (p : Predictor) (hT : T < 2 ^ 64) :
    ((StdEncoder.close (StdEncoder.new T p)).length = 13 ∧
     (StdDecoder.next (StdDecoder.new
        (bytesToBits (StdEncoder.close (StdEncoder.new T p))) p)).1 =
       .error .EndOfStream) ∧
    StdEncoder.close (StdEncoder.new 1482268055 SimplePredictor.new) =
      [0, 0, 0, 0, 88, 89, 157, 151, 240, 0, 0, 0, 0] := by
  have hclose : StdEncoder.close (StdEncoder.new T p) =
      toBytes (writeBits T 64 ++ writeBits END_MARKER 36) := by
    simp [StdEncoder.close, StdEncoder.new]
  have hlen : (writeBits T 64 ++ writeBits END_MARKER 36).length = 100 := by
    simp [writeBits_length]
  have hspec := toBytes_spec (writeBits T 64 ++ writeBits END_MARKER 36) 13
    (by rw [hlen])
  refine ⟨⟨?_, ?_⟩, ?_⟩
  · rw [hclose]
    exact hspec.2
  · rw [hclose]
    have hbits : bytesToBits (toBytes (writeBits T 64 ++ writeBits END_MARKER 36)) =
        writeBits T 64 ++ (writeBits END_MARKER 36 ++ List.replicate 4 false) := by
      rw [hspec.1, hlen]
      norm_num [List.append_assoc]
    rw [hbits]
    exact next_marker T p hT (List.replicate 4 false)
  · decide

theorem C7_empty_stream_witness :
    (1482268055 : Nat) < 2 ^ 64 ∧
    (StdEncoder.close (StdEncoder.new 1482268055 SimplePredictor.new)).length = 13 ∧
    (StdDecoder.next (StdDecoder.new
        (bytesToBits (StdEncoder.close (StdEncoder.new 1482268055 SimplePredictor.new)))
        SimplePredictor.new)).1 = .error .EndOfStream :=
  ⟨by decide,
   ((C7_empty_stream 1482268055 SimplePredictor.new (by decide)).1).1,
   ((C7_empty_stream 1482268055 SimplePredictor.new (by decide)).1).2⟩

/-! Shape of the bits emitted for one record (claim C8). -/

theorem wnt_bits_zero (e : EncState) (t : Nat)
    (h0 : toI32 (wsub (wsub t e.time) e.delta) = 0) :
    (StdEncoder.write_next_timestamp e t).w.drop e.w.length = [false] := by
  simp only [StdEncoder.write_next_timestamp]
  rw [if_pos h0]
  simp [List.drop_left]

theorem wnt_bits_escape (e : EncState) (t : Nat)
    (h0 : toI32 (wsub (wsub t e.time) e.delta) ≠ 0)
    (hn7 : ¬(-63 ≤ toI32 (wsub (wsub t e.time) e.delta) ∧ toI32 (wsub (wsub t e.time) e.delta) ≤ 64))
    (hn9 : ¬(-255 ≤ toI32 (wsub (wsub t e.time) e.delta) ∧ toI32 (wsub (wsub t e.time) e.delta) ≤ 256))
    (hn12 : ¬(-2047 ≤ toI32 (wsub (wsub t e.time) e.delta) ∧ toI32 (wsub (wsub t e.time) e.delta) ≤ 2048)) :
    (StdEncoder.write_next_timestamp e t).w.drop e.w.length =
      writeBits 15 4 ++ writeBits (i64bits (toI32 (wsub (wsub t e.time) e.delta))) 32 := by
  simp only [StdEncoder.write_next_timestamp]
  rw [if_neg h0, if_neg hn7, if_neg hn9, if_neg hn12]
  simp [List.drop_left]

theorem wnv_w (e : EncState) (v : Nat) :
    ∃ vb, (StdEncoder.write_next_value e v).w = e.w ++ vb := by
  by_cases h1 : (v ^^^ e.predictor.predict_next) = 0
  · exact ⟨[false], by simp [StdEncoder.write_next_value, h1]⟩
  · by_cases h2 : clz64 (v ^^^ e.predictor.predict_next) = e.leading_zeros
    · exact ⟨true :: false :: writeBits (v ^^^ e.predictor.predict_next) (64 - e.leading_zeros),
        by simp [StdEncoder.write_next_value, h1, h2]⟩
    · exact ⟨true :: true ::
          (writeBits (clz64 (v ^^^ e.predictor.predict_next)) 6 ++
            writeBits (v ^^^ e.predictor.predict_next) (64 - clz64 (v ^^^ e.predictor.predict_next))),
        by simp [StdEncoder.write_next_value, h1, h2]⟩

theorem take36_cons (a : Bool) (l : List Bool) :
    List.take 36 (a :: l) = a :: List.take 35 l := rfl

theorem take35_cons (a : Bool) (l : List Bool) :
    List.take 35 (a :: l) = a :: List.take 34 l := rfl

theorem take34_cons (a : Bool) (l : List Bool) :
    List.take 34 (a :: l) = a :: List.take 33 l := rfl

theorem take33_cons (a : Bool) (l : List Bool) :
    List.take 33 (a :: l) = a :: List.take 32 l := rfl

/-- C8 (End-marker uniqueness).  The bit sequence the encoder emits for
any record (delta-of-delta code from write_next_timestamp followed by
the value frame from write_next_value), whatever follows it, never
begins with the 36-bit end marker 1111 followed by 32 zero bits: a zero
DoD takes the single-bit prefix 0, the narrow buckets have a 0 among
their first four bits, and the 1111 escape prefix always carries a
non-zero 32-bit payload. -/
theorem C8_no_marker (e : EncState) (t v : Nat) (suffix : List Bool) :
    List.take 36
        ((StdEncoder.write_next_value (StdEncoder.write_next_timestamp e t) v).w.drop
          e.w.length ++ suffix) ≠
      writeBits END_MARKER 36 := by
  intro hcontra
  obtain ⟨vb, hvb⟩ := wnv_w (StdEncoder.write_next_timestamp e t) v
  have hdecomp : (StdEncoder.write_next_value (StdEncoder.write_next_timestamp e t) v).w.drop
      e.w.length =
      (StdEncoder.write_next_timestamp e t).w.drop e.w.length ++ vb := by
    rw [hvb]
    conv_lhs => rw [show (StdEncoder.write_next_timestamp e t).w =
      e.w ++ (StdEncoder.write_next_timestamp e t).w.drop e.w.length from by
        simp only [StdEncoder.write_next_timestamp]
        simp [List.drop_left]]
    rw [List.append_assoc, List.drop_left]
  rw [hdecomp, markerBits_eq] at hcontra
  by_cases h0 : toI32 (wsub (wsub t e.time) e.delta) = 0
  · rw [wnt_bits_zero e t h0] at hcontra
    simp only [List.cons_append, List.nil_append, take36_cons] at hcontra
    exact absurd (List.head_eq_of_cons_eq hcontra) (by decide)
  by_cases hb7 : -63 ≤ toI32 (wsub (wsub t e.time) e.delta) ∧ toI32 (wsub (wsub t e.time) e.delta) ≤ 64
  · rw [wnt_bits_bucket7 e t h0 hb7] at hcontra
    simp only [List.cons_append, List.nil_append, List.append_assoc,
      take36_cons, take35_cons] at hcontra
    obtain ⟨-, h2⟩ := List.cons_eq_cons.mp hcontra
    exact absurd (List.head_eq_of_cons_eq h2) (by decide)
  by_cases hb9 : -255 ≤ toI32 (wsub (wsub t e.time) e.delta) ∧ toI32 (wsub (wsub t e.time) e.delta) ≤ 256
  · rw [wnt_bits_bucket9 e t h0 hb7 hb9] at hcontra
    simp only [List.cons_append, List.nil_append, List.append_assoc,
      take36_cons, take35_cons, take34_cons] at hcontra
    obtain ⟨-, h2⟩ := List.cons_eq_cons.mp hcontra
    obtain ⟨-, h3⟩ := List.cons_eq_cons.mp h2
    exact absurd (List.head_eq_of_cons_eq h3) (by decide)
  by_cases hb12 : -2047 ≤ toI32 (wsub (wsub t e.time) e.delta) ∧ toI32 (wsub (wsub t e.time) e.delta) ≤ 2048
  · rw [wnt_bits_bucket12 e t h0 hb7 hb9 hb12] at hcontra
    simp only [List.cons_append, List.nil_append, List.append_assoc,
      take36_cons, take35_cons, take34_cons, take33_cons] at hcontra
    obtain ⟨-, h2⟩ := List.cons_eq_cons.mp hcontra
    obtain ⟨-, h3⟩ := List.cons_eq_cons.mp h2
    obtain ⟨-, h4⟩ := List.cons_eq_cons.mp h3
    exact absurd (List.head_eq_of_cons_eq h4) (by decide)
  · rw [wnt_bits_escape e t h0 hb7 hb9 hb12] at hcontra
    have hesc : writeBits 15 4 = [true, true, true, true] := by decide
    rw [hesc] at hcontra
    simp only [List.cons_append, List.nil_append, List.append_assoc,
      take36_cons, take35_cons, take34_cons, take33_cons] at hcontra
    obtain ⟨-, h2⟩ := List.cons_eq_cons.mp hcontra
    obtain ⟨-, h3⟩ := List.cons_eq_cons.mp h2
    obtain ⟨-, h4⟩ := List.cons_eq_cons.mp h3
    obtain ⟨-, h5⟩ := List.cons_eq_cons.mp h4
    have hpl : List.take 32 (writeBits (i64bits (toI32 (wsub (wsub t e.time) e.delta))) 32 ++
        (vb ++ suffix)) = writeBits (i64bits (toI32 (wsub (wsub t e.time) e.delta))) 32 :=
      List.take_left' (writeBits_length _ _)
    rw [hpl] at h5
    have hzero := congrArg bitsToNat h5
    rw [bitsToNat_writeBits] at hzero
    have hrepl : bitsToNat (List.replicate 32 false) = 0 := by decide
    rw [hrepl] at hzero
    have hrange := toI32_range (wsub (wsub t e.time) e.delta)
    unfold i64bits at hzero
    omega

/-! Encoder/decoder state synchronisation (claim C4). -/

theorem wsub_of_le (a b : Nat) (ha : a < 2 ^ 64) (hab : b ≤ a) : wsub a b = a - b := by
  unfold wsub
  omega

theorem wnt_w (e : EncState) (t : Nat) :
    (StdEncoder.write_next_timestamp e t).w = e.w ++ (StdEncoder.write_next_timestamp e t).w.drop e.w.length := by
  simp only [StdEncoder.write_next_timestamp]
  simp [List.drop_left]

theorem wnt_fields (e : EncState) (t : Nat) :
    (StdEncoder.write_next_timestamp e t).time = t ∧
    (StdEncoder.write_next_timestamp e t).delta = wsub t e.time ∧
    (StdEncoder.write_next_timestamp e t).predictor = e.predictor ∧
    (StdEncoder.write_next_timestamp e t).leading_zeros = e.leading_zeros ∧
    (StdEncoder.write_next_timestamp e t).first = e.first := by
  simp [StdEncoder.write_next_timestamp]

theorem wnv_fields (e : EncState) (v : Nat) :
    (StdEncoder.write_next_value e v).time = e.time ∧
    (StdEncoder.write_next_value e v).delta = e.delta ∧
    (StdEncoder.write_next_value e v).first = e.first ∧
    (StdEncoder.write_next_value e v).predictor = e.predictor.update v := by
  by_cases h1 : (v ^^^ e.predictor.predict_next) = 0
  · simp [StdEncoder.write_next_value, h1]
  · by_cases h2 : clz64 (v ^^^ e.predictor.predict_next) = e.leading_zeros
    · simp [StdEncoder.write_next_value, h1, h2]
    · simp [StdEncoder.write_next_value, h1, h2]

/-- One encoded timestamp, consumed by a decoder that agrees with the
encoder on time and delta before the record, leaves the decoder at the
encoder's new time and delta (delta-of-deltas within the 12-bit
buckets, i.e. in -2047..2048 as a signed 64-bit difference). -/
theorem ts_sim (e : EncState) (d : DecState) (t : Nat) (rest : List Bool)
    (het : e.time < 2 ^ 64) (hed : e.delta < 2 ^ 64) (ht : t < 2 ^ 64)
    (hdt : d.time = e.time) (hdd : d.delta = e.delta)
    (h1 : -2047 ≤ toI64 (wsub (wsub t e.time) e.delta))
    (h2 : toI64 (wsub (wsub t e.time) e.delta) ≤ 2048)
    (hr : d.r = (StdEncoder.write_next_timestamp e t).w.drop e.w.length ++ rest) :
    StdDecoder.read_next_timestamp d =
      (.ok t, { d with
        time := t
        delta := wsub t e.time
        r := rest }) := by
  have hD : wsub (wsub t e.time) e.delta < 2 ^ 64 := wsub_lt _ _
  have htoI : toI32 (wsub (wsub t e.time) e.delta) = toI64 (wsub (wsub t e.time) e.delta) :=
    toI32_eq_toI64 _ hD h1 h2
  by_cases h0 : toI32 (wsub (wsub t e.time) e.delta) = 0
  · have hDz : wsub (wsub t e.time) e.delta = 0 := by
      rw [htoI] at h0
      unfold toI64 at h0
      split at h0 <;> omega
    have hde : wsub t e.time = e.delta := wsub_eq_zero _ _ (wsub_lt _ _) hed hDz
    have htime : (d.time + d.delta) % 2 ^ 64 = t := by
      rw [hdt, hdd, ← hde, wsub_add_cancel t e.time ht het]
    obtain ⟨tm, dl, pr, lz, fi, dn, r⟩ := d
    simp only at hdt hdd htime
    have hr2 : r = false :: rest := by
      have hr3 : r = List.drop e.w.length (StdEncoder.write_next_timestamp e t).w ++ rest := hr
      rw [hr3, wnt_bits_zero e t h0]
      rfl
    subst hr2
    unfold StdDecoder.read_next_timestamp
    rw [readOnes4_k0 _ rest rfl]
    dsimp only
    norm_num
    refine ⟨by omega, ?_⟩
    rw [hde, hdd]
  · have hsp := read_ts_bucket_spec e d t rest het hed ht (by rw [htoI]; exact h1)
      (by rw [htoI]; exact h2) h0 hr
    have hi : i64bits (toI32 (wsub (wsub t e.time) e.delta)) = wsub (wsub t e.time) e.delta := by
      rw [htoI]
      exact i64bits_toI64 _ hD
    have hdelta2 : (d.delta + i64bits (toI32 (wsub (wsub t e.time) e.delta))) % 2 ^ 64 =
        wsub t e.time := by
      rw [hi, hdd]
      exact wsub_add_cancel _ _ (wsub_lt _ _) hed
    have htime2 : (d.time + wsub t e.time) % 2 ^ 64 = t := by
      rw [hdt]
      exact wsub_add_cancel t e.time ht het
    rw [hsp, hdelta2, htime2]

/-! Emitted bits and state of the encoder value frame, by branch. -/

theorem wnv_bits_zero (e : EncState) (v : Nat)
    (hx : v ^^^ e.predictor.predict_next = 0) :
    (StdEncoder.write_next_value e v).w.drop e.w.length = [false] := by
  simp [StdEncoder.write_next_value, hx, List.drop_left]

theorem wnv_bits_reuse (e : EncState) (v : Nat)
    (hx : ¬ v ^^^ e.predictor.predict_next = 0)
    (hlzeq : clz64 (v ^^^ e.predictor.predict_next) = e.leading_zeros) :
    (StdEncoder.write_next_value e v).w.drop e.w.length =
      true :: false :: writeBits (v ^^^ e.predictor.predict_next) (64 - e.leading_zeros) := by
  simp [StdEncoder.write_next_value, hx, hlzeq, List.drop_left]

theorem wnv_bits_new (e : EncState) (v : Nat)
    (hx : ¬ v ^^^ e.predictor.predict_next = 0)
    (hlzne : ¬ clz64 (v ^^^ e.predictor.predict_next) = e.leading_zeros) :
    (StdEncoder.write_next_value e v).w.drop e.w.length =
      true :: true :: (writeBits (clz64 (v ^^^ e.predictor.predict_next)) 6 ++
        writeBits (v ^^^ e.predictor.predict_next) (64 - clz64 (v ^^^ e.predictor.predict_next))) := by
  simp [StdEncoder.write_next_value, hx, hlzne, List.drop_left]

theorem wnv_lz_zero (e : EncState) (v : Nat)
    (hx : v ^^^ e.predictor.predict_next = 0) :
    (StdEncoder.write_next_value e v).leading_zeros = e.leading_zeros := by
  simp [StdEncoder.write_next_value, hx]

theorem wnv_lz_reuse (e : EncState) (v : Nat)
    (hx : ¬ v ^^^ e.predictor.predict_next = 0)
    (hlzeq : clz64 (v ^^^ e.predictor.predict_next) = e.leading_zeros) :
    (StdEncoder.write_next_value e v).leading_zeros = e.leading_zeros := by
  simp [StdEncoder.write_next_value, hx, hlzeq]

theorem wnv_lz_new (e : EncState) (v : Nat)
    (hx : ¬ v ^^^ e.predictor.predict_next = 0)
    (hlzne : ¬ clz64 (v ^^^ e.predictor.predict_next) = e.leading_zeros) :
    (StdEncoder.write_next_value e v).leading_zeros =
      clz64 (v ^^^ e.predictor.predict_next) := by
  simp [StdEncoder.write_next_value, hx, hlzne]

/-- One encoded value frame, consumed by a decoder whose (last-value)
predictor agrees with the encoder's and whose leading-zero window
agrees unless the encoder still holds the 64 sentinel, decodes to
exactly the encoded value, with both predictors absorbing it and the
windows staying linked. -/
theorem read_value_sim (e : EncState) (d : DecState) (v s : Nat) (rest : List Bool)
    (hv : v < 2 ^ 64) (hs : s < 2 ^ 64)
    (hpe : e.predictor = .simple s) (hpd : d.predictor = .simple s)
    (hlz : e.leading_zeros = 64 ∨ d.leading_zeros = e.leading_zeros)
    (hr : d.r = (StdEncoder.write_next_value e v).w.drop e.w.length ++ rest) :
    ∃ lz2, StdDecoder.read_next_value d =
        (.ok v, { d with
          predictor := .simple v
          leading_zeros := lz2
          r := rest }) ∧
      ((StdEncoder.write_next_value e v).leading_zeros = 64 ∨
        lz2 = (StdEncoder.write_next_value e v).leading_zeros) ∧
      (StdEncoder.write_next_value e v).predictor = .simple v := by
  have hpredeq : e.predictor.predict_next = s := by
    rw [hpe]
    rfl
  have hupd : (StdEncoder.write_next_value e v).predictor = .simple v := by
    rw [(wnv_fields e v).2.2.2, hpe]
    rfl
  by_cases hx : v ^^^ e.predictor.predict_next = 0
  · have hvs : v = s := by
      rw [hpredeq] at hx
      exact Nat.xor_eq_zero.mp hx
    refine ⟨d.leading_zeros, ?_, ?_, hupd⟩
    · obtain ⟨tm, dl, pr, lz, fi, dn, r⟩ := d
      have hpd2 : pr = .simple s := hpd
      have hr2 : r = false :: rest := by
        have hr3 : r = (StdEncoder.write_next_value e v).w.drop e.w.length ++ rest := hr
        rw [hr3, wnv_bits_zero e v hx]
        rfl
      subst hpd2
      subst hr2
      subst hvs
      unfold StdDecoder.read_next_value
      rw [read_bit_cons _ false rest rfl]
      dsimp only [Predictor.predict_next]
      norm_num
    · rw [wnv_lz_zero e v hx]
      exact hlz
  · have hxs : ¬ v ^^^ s = 0 := by
      rw [← hpredeq]
      exact hx
    have hxorlt : v ^^^ s < 2 ^ 64 := Nat.xor_lt_two_pow hv hs
    have hxorfull : v ^^^ s < 2 ^ (64 - clz64 (v ^^^ s)) := lt_two_pow_clz _ hxorlt
    have hcl : clz64 (v ^^^ s) ≤ 63 := clz64_le _ hxs hxorlt
    have hvalue : s ^^^ (v ^^^ s) = v := by
      rw [Nat.xor_comm v s]
      exact Nat.xor_cancel_left s v
    by_cases hlzeq : clz64 (v ^^^ e.predictor.predict_next) = e.leading_zeros
    · have hclzs : clz64 (v ^^^ s) = e.leading_zeros := by
        rw [← hpredeq]
        exact hlzeq
      have helz : e.leading_zeros ≤ 63 := hclzs ▸ hcl
      have hdlz : d.leading_zeros = e.leading_zeros := by
        rcases hlz with h | h
        · omega
        · exact h
      refine ⟨d.leading_zeros, ?_, ?_, hupd⟩
      · obtain ⟨tm, dl, pr, lz, fi, dn, r⟩ := d
        have hpd2 : pr = .simple s := hpd
        have hdlz2 : lz = e.leading_zeros := hdlz
        have hr2 : r = true :: false ::
            (writeBits (v ^^^ s) (64 - e.leading_zeros) ++ rest) := by
          have hr3 : r = (StdEncoder.write_next_value e v).w.drop e.w.length ++ rest := hr
          rw [hr3, wnv_bits_reuse e v hx hlzeq, hpredeq]
          rfl
        subst hpd2
        subst hdlz2
        subst hr2
        unfold StdDecoder.read_next_value
        rw [read_bit_cons _ true _ rfl]
        dsimp only [Predictor.predict_next]
        norm_num
        rw [read_bit_cons _ false _ rfl]
        dsimp only
        norm_num
        rw [read_bits_append _ (v ^^^ s) (64 - e.leading_zeros) rest rfl]
        dsimp only
        rw [Nat.mod_eq_of_lt (by rw [← hclzs]; exact hxorfull), hvalue]
        rfl
      · rw [wnv_lz_reuse e v hx hlzeq]
        exact Or.inr hdlz
    · have hclzs : clz64 (v ^^^ s) = clz64 (v ^^^ e.predictor.predict_next) := by
        rw [hpredeq]
      refine ⟨clz64 (v ^^^ s), ?_, ?_, hupd⟩
      · obtain ⟨tm, dl, pr, lz, fi, dn, r⟩ := d
        have hpd2 : pr = .simple s := hpd
        have hr2 : r = true :: true ::
            (writeBits (clz64 (v ^^^ s)) 6 ++
              (writeBits (v ^^^ s) (64 - clz64 (v ^^^ s)) ++ rest)) := by
          have hr3 : r = (StdEncoder.write_next_value e v).w.drop e.w.length ++ rest := hr
          rw [hr3, wnv_bits_new e v hx hlzeq, hpredeq]
          simp
        subst hpd2
        subst hr2
        unfold StdDecoder.read_next_value
        rw [read_bit_cons _ true _ rfl]
        dsimp only [Predictor.predict_next]
        norm_num
        rw [read_bit_cons _ true _ rfl]
        dsimp only
        norm_num
        rw [read_bits_append _ (clz64 (v ^^^ s)) 6 _ rfl]
        dsimp only
        rw [Nat.mod_eq_of_lt (show clz64 (v ^^^ s) < 2 ^ 6 by omega)]
        rw [read_bits_append _ (v ^^^ s) (64 - clz64 (v ^^^ s)) rest rfl]
        dsimp only
        rw [Nat.mod_eq_of_lt hxorfull, hvalue]
        rfl
      · rw [wnv_lz_new e v hx hlzeq]
        exact Or.inr hclzs

/-- Agreement of encoder and decoder states between records: time and
delta coincide, both predictors are the same last-value predictor, and
the leading-zero windows coincide unless the encoder still holds its
initial 64 sentinel (the decoder starts at 0; the first non-zero XOR
forces a new-window frame that synchronises them). -/
structure Sync (e : EncState) (d : DecState) : Prop where
  htime : d.time = e.time
  hdelta : d.delta = e.delta
  hpred : ∃ s, s < 2 ^ 64 ∧ e.predictor = .simple s ∧ d.predictor = .simple s
  hlz : e.leading_zeros = 64 ∨ d.leading_zeros = e.leading_zeros
  htb : e.time < 2 ^ 64
  hdb : e.delta < 2 ^ 64
  hefirst : e.first = false
  hdfirst : d.first = false
  hdone : d.done = false

/-- Decoding the first record: header, control bit 0, 14-bit first
delta, 64 raw value bits. -/
theorem next_first_record (d0 : DecState) (start delta v : Nat) (rest : List Bool)
    (hst : start < 2 ^ 64) (hdel : delta < 2 ^ 14) (hv : v < 2 ^ 64)
    (hsum : start + delta < 2 ^ 64)
    (hfirst : d0.first = true) (hdone : d0.done = false)
    (hr : d0.r = writeBits start 64 ++
      ([false] ++ (writeBits delta 14 ++ (writeBits v 64 ++ rest)))) :
    StdDecoder.next d0 =
      (.ok ⟨start + delta, toI64 v⟩,
       { d0 with
         first := false
         time := start + delta
         delta := delta
         predictor := d0.predictor.update v
         r := rest }) := by
  obtain ⟨tm, dl, pr, lz, fi, dn, r⟩ := d0
  have hfi : fi = true := hfirst
  have hdn : dn = false := hdone
  have hr2 : r = writeBits start 64 ++
      ([false] ++ (writeBits delta 14 ++ (writeBits v 64 ++ rest))) := hr
  subst hfi
  subst hdn
  subst hr2
  unfold StdDecoder.next
  norm_num
  unfold StdDecoder.read_first_timestamp StdDecoder.read_initial_timestamp
  rw [read_bits_append _ start 64 _ rfl]
  dsimp only
  rw [Nat.mod_eq_of_lt hst]
  rw [peak_bits_one _ false _ rfl]
  dsimp only
  norm_num
  rw [read_bit_cons _ false _ rfl]
  dsimp only
  rw [read_bits_append _ delta 14 _ rfl]
  dsimp only
  rw [Nat.mod_eq_of_lt hdel]
  have hmod2 : (start + delta) % 18446744073709551616 = start + delta := by omega
  rw [hmod2]
  unfold StdDecoder.read_first_value
  rw [read_bits_append _ v 64 rest rfl]
  dsimp only
  rw [Nat.mod_eq_of_lt hv]

/-- C4 (corrected).  State synchronisation between encoder and decoder
with the last-value predictor, for records whose delta-of-delta (as a
signed 64-bit difference) stays within the -2047..2048 buckets: the
first record establishes the Sync relation (time, delta and predictor
agree; the leading-zero windows are only linked, NOT byte-for-byte
equal, the encoder holding the 64 sentinel and the decoder 0 until the
first new-window frame), and every further record, once emitted by the
encoder and fully consumed by the decoder, decodes to the encoded
DataPoint and preserves Sync. -/
theorem C4_state_sync :
    (∀ (start s0 : Nat) (dp : DataPoint) (rest : List Bool),
      start < 2 ^ 64 → dp.time < 2 ^ 64 → start ≤ dp.time → dp.time - start < 2 ^ 14 →
      -(2 ^ 63) ≤ dp.value → dp.value < 2 ^ 63 → s0 < 2 ^ 64 →
      ∃ d1, StdDecoder.next (StdDecoder.new
          ((StdEncoder.encode (StdEncoder.new start (.simple s0)) dp).w ++ rest) (.simple s0)) =
          (.ok dp, d1) ∧
        Sync (StdEncoder.encode (StdEncoder.new start (.simple s0)) dp) d1 ∧ d1.r = rest) ∧
    (∀ (e : EncState) (d : DecState) (dp : DataPoint) (rest : List Bool),
      Sync e d →
      dp.time < 2 ^ 64 → -(2 ^ 63) ≤ dp.value → dp.value < 2 ^ 63 →
      -2047 ≤ toI64 (wsub (wsub dp.time e.time) e.delta) →
      toI64 (wsub (wsub dp.time e.time) e.delta) ≤ 2048 →
      d.r = (StdEncoder.encode e dp).w.drop e.w.length ++ rest →
      ∃ d2, StdDecoder.next d = (.ok dp, d2) ∧
        Sync (StdEncoder.encode e dp) d2 ∧ d2.r = rest) := by
  constructor
  · intro start s0 dp rest hst ht hle hdel hv1 hv2 hs0
    have hv : i64bits dp.value < 2 ^ 64 := i64bits_lt _
    have hsum : start + (dp.time - start) < 2 ^ 64 := by omega
    have hencA : StdEncoder.encode (StdEncoder.new start (.simple s0)) dp =
        { time := dp.time
          delta := dp.time - start
          predictor := .simple (i64bits dp.value)
          leading_zeros := 64
          first := false
          w := writeBits start 64 ++ [false] ++ writeBits (dp.time - start) 14 ++
            writeBits (i64bits dp.value) 64 } := by
      unfold StdEncoder.encode StdEncoder.new StdEncoder.write_first
      norm_num
      rw [wsub_of_le dp.time start ht hle]
      repeat' constructor
    have hrun := next_first_record
      (StdDecoder.new ((StdEncoder.encode (StdEncoder.new start (.simple s0)) dp).w ++ rest)
        (.simple s0))
      start (dp.time - start) (i64bits dp.value) rest hst hdel hv hsum rfl rfl
      (by rw [hencA]; simp [StdDecoder.new, List.append_assoc])
    have hteq : start + (dp.time - start) = dp.time := by omega
    rw [hteq] at hrun
    have hdp : (⟨dp.time, toI64 (i64bits dp.value)⟩ : DataPoint) = dp := by
      rw [toI64_i64bits dp.value hv1 hv2]
    rw [hdp] at hrun
    refine ⟨_, hrun, ?_, rfl⟩
    rw [hencA]
    refine ⟨rfl, rfl, ⟨i64bits dp.value, hv, rfl, rfl⟩, Or.inl rfl, ht, ?_, rfl, rfl, rfl⟩
    dsimp only
    omega
  · intro e d dp rest hsync ht hv1 hv2 h1 h2 hr
    obtain ⟨hdt, hdd, ⟨s, hs, hpe, hpd⟩, hlz, htb, hdb, hef, hdf, hdn⟩ := hsync
    have hv : i64bits dp.value < 2 ^ 64 := i64bits_lt _
    have henc : StdEncoder.encode e dp =
        StdEncoder.write_next_value (StdEncoder.write_next_timestamp e dp.time)
          (i64bits dp.value) := by
      unfold StdEncoder.encode
      rw [hef]
      norm_num
    obtain ⟨vb, hvb⟩ := wnv_w (StdEncoder.write_next_timestamp e dp.time) (i64bits dp.value)
    have hvbdrop : (StdEncoder.write_next_value (StdEncoder.write_next_timestamp e dp.time)
        (i64bits dp.value)).w.drop (StdEncoder.write_next_timestamp e dp.time).w.length = vb := by
      rw [hvb, List.drop_left]
    have hrecord : (StdEncoder.write_next_value (StdEncoder.write_next_timestamp e dp.time)
        (i64bits dp.value)).w.drop e.w.length =
        (StdEncoder.write_next_timestamp e dp.time).w.drop e.w.length ++ vb := by
      rw [hvb]
      conv_lhs => rw [wnt_w e dp.time]
      rw [List.append_assoc, List.drop_left]
    have hts := ts_sim e d dp.time (vb ++ rest) htb hdb ht hdt hdd h1 h2
      (by rw [hr, henc, hrecord, List.append_assoc])
    have hval := read_value_sim (StdEncoder.write_next_timestamp e dp.time)
      { d with
        time := dp.time
        delta := wsub dp.time e.time
        r := vb ++ rest }
      (i64bits dp.value) s rest hv hs
      (by rw [(wnt_fields e dp.time).2.2.1]; exact hpe)
      (by dsimp only; exact hpd)
      (by rw [(wnt_fields e dp.time).2.2.2.1]; dsimp only; exact hlz)
      (by dsimp only; rw [hvbdrop])
    obtain ⟨lz2, hvrun, hlz2, hpv⟩ := hval
    unfold StdDecoder.next
    rw [hdn, hdf]
    norm_num
    rw [hts]
    dsimp only
    rw [hvrun]
    dsimp only
    have hdp : (⟨dp.time, toI64 (i64bits dp.value)⟩ : DataPoint) = dp := by
      rw [toI64_i64bits dp.value hv1 hv2]
    rw [hdp]
    refine ⟨_, rfl, ?_, rfl⟩
    rw [henc]
    refine ⟨?_, ?_, ⟨i64bits dp.value, hv, hpv, rfl⟩, ?_, ?_, ?_, ?_, hdf, hdn⟩
    · dsimp only
      rw [(wnv_fields _ _).1, (wnt_fields _ _).1]
    · dsimp only
      rw [(wnv_fields _ _).2.1, (wnt_fields _ _).2.1]
    · rcases hlz2 with h | h
      · exact Or.inl h
      · exact Or.inr h
    · rw [(wnv_fields _ _).1, (wnt_fields _ _).1]
      exact ht
    · rw [(wnv_fields _ _).2.1, (wnt_fields _ _).2.1]
      exact wsub_lt _ _
    · rw [(wnv_fields _ _).2.2.1, (wnt_fields _ _).2.2.2.2]
      exact hef

/-- C4 counterexample.  After the first record is emitted and fully
consumed (start 0, point (1, 1), last-value predictors), the encoder's
leading_zeros is the 64 sentinel while the decoder's is 0: the two
states are not byte-for-byte identical as the claim demands. -/
theorem C4_lz_cex :
    (StdDecoder.next (StdDecoder.new
        (StdEncoder.encode (StdEncoder.new 0 SimplePredictor.new) ⟨1, 1⟩).w
        SimplePredictor.new)).1 = .ok ⟨1, 1⟩ ∧
    (StdEncoder.encode (StdEncoder.new 0 SimplePredictor.new) ⟨1, 1⟩).leading_zeros = 64 ∧
    ((StdDecoder.next (StdDecoder.new
        (StdEncoder.encode (StdEncoder.new 0 SimplePredictor.new) ⟨1, 1⟩).w
        SimplePredictor.new)).2).leading_zeros = 0 ∧
    (64 : Nat) ≠ 0 := by
  refine ⟨by decide, by decide, by decide, by decide⟩

theorem C4_state_sync_witness :
    (∃ d1, StdDecoder.next (StdDecoder.new
        ((StdEncoder.encode (StdEncoder.new 100 (.simple 0)) ⟨105, 7⟩).w ++ []) (.simple 0)) =
        (.ok ⟨105, 7⟩, d1) ∧
      Sync (StdEncoder.encode (StdEncoder.new 100 (.simple 0)) ⟨105, 7⟩) d1 ∧ d1.r = []) ∧
    (∃ d2, StdDecoder.next
        ⟨105, 5, .simple 7, 0, false, false,
         (StdEncoder.encode ⟨105, 5, .simple 7, 64, false, []⟩ ⟨115, 7⟩).w⟩ =
        (.ok ⟨115, 7⟩, d2) ∧
      Sync (StdEncoder.encode ⟨105, 5, .simple 7, 64, false, []⟩ ⟨115, 7⟩) d2 ∧ d2.r = []) := by
  constructor
  · exact C4_state_sync.1 100 0 ⟨105, 7⟩ [] (by decide) (by decide) (by decide) (by decide)
      (by decide) (by decide) (by decide)
  · exact C4_state_sync.2 ⟨105, 5, .simple 7, 64, false, []⟩
      ⟨105, 5, .simple 7, 0, false, false,
       (StdEncoder.encode ⟨105, 5, .simple 7, 64, false, []⟩ ⟨115, 7⟩).w⟩
      ⟨115, 7⟩ []
      ⟨rfl, rfl, ⟨7, by decide, rfl, rfl⟩, Or.inl rfl, by decide, by decide, rfl, rfl, rfl⟩
      (by decide) (by decide) (by decide) (by decide) (by decide)
      (by simp)

end Tsz
